import Mathlib

/-!
Verification development for the pdfkiwi Arrangement & Export Engine
(`src/pdfkiwi.py`).  The page sequence shown in the `PageList` widget is
modelled as a `List α`; widget rows are list indices.  Each definition is a
shallow embedding of the Python routine named in its doc comment.
-/

namespace Pdfkiwi

/-- Model of `QListWidget.takeItem` performed repeatedly, as in
`PageList.dropEvent` (line 234): `items = [self.takeItem(r - k) for k, r in
enumerate(selected_rows)]`.  `takeItem` on an out-of-range row returns null
(modelled by `none`) and leaves the list unchanged, which is also
`List.eraseIdx`'s behaviour.  Returns the taken items in order together with
the list that remains. -/
def takeItemsAux {α : Type} : List α → List Nat → Nat → List (Option α) × List α
  | l, [], _ => ([], l)
  | l, r :: rs, k =>
    let rest := takeItemsAux (l.eraseIdx (r - k)) rs (k + 1)
    (l[r - k]? :: rest.1, rest.2)

/-- Model of `QListWidget.insertItem(row, item)`: inserting at a row past the
end appends, i.e. the insertion position is clamped to the current length. -/
def qtInsert {α : Type} (l : List α) (p : Nat) (x : α) : List α :=
  List.insertIdx (min p l.length) x l

/-- The insertion loop of `PageList.dropEvent` (lines 240-241):
`for i, it in enumerate(items): self.insertItem(insert_at + i, it)`.
A `none` entry (impossible for the in-range selections the widget produces)
inserts nothing but still advances the position counter. -/
def insertLoopOpt {α : Type} : List α → List (Option α) → Nat → List α
  | l, [], _ => l
  | l, none :: its, p => insertLoopOpt l its (p + 1)
  | l, some x :: its, p => insertLoopOpt (qtInsert l p x) its (p + 1)

/-- `PageList.dropEvent` (lines 223-245) on the internal-reorder path:
`selectedRows` is the strictly increasing list of selected rows (the code's
`sorted({i.row() for i in self.selectedIndexes()})`) and `dropIndex` the
`_drop_index` computed by `dragMoveEvent`.  Items are taken with shifted
indices, the insertion point is reduced by the number of selected rows below
it, and the block is reinserted one item at a time. -/
def dropEvent {α : Type} (l : List α) (selectedRows : List Nat) (dropIndex : Nat) : List α :=
  let taken := takeItemsAux l selectedRows 0
  let insertAt := dropIndex - selectedRows.countP (fun r => decide (r < dropIndex))
  insertLoopOpt taken.2 taken.1 insertAt

/-- `PageList.remove_selected` (lines 201-205) and `MainWindow._trash_from_list`
(lines 647-654): the selected rows are visited in decreasing order
(`sorted(..., reverse=True)`) and removed one by one with `takeItem`.
`rows` is that decreasing list. -/
def remove_selected {α : Type} : List α → List Nat → List α
  | l, [] => l
  | l, r :: rs => remove_selected (l.eraseIdx r) rs

/-- Positional filter: keep the elements whose position (counted from `i`)
satisfies `P`.  Used to state which original items survive a removal. -/
def keepFrom {α : Type} (P : Nat → Bool) : Nat → List α → List α
  | _, [] => []
  | i, a :: l => if P i then a :: keepFrom P (i + 1) l else keepFrom P (i + 1) l

/-- Modelled from the spec: "the resulting sequence equals the original
sequence restricted to indices not in S, in original relative order". -/
def keepNotMem {α : Type} (l : List α) (rows : List Nat) : List α :=
  keepFrom (fun i => decide (i ∉ rows)) 0 l

/-- Modelled from the spec, section 4.1 `relocate`: "(1) extract items at
`selected`, preserving order; (2) compute
`adjustedTarget = targetIndex - |i in selected : i < targetIndex|`;
(3) reinsert the extracted block starting at `adjustedTarget` into the
sequence of remaining items". -/
def relocateSpec {α : Type} (l : List α) (selected : List Nat) (t : Nat) : List α :=
  let extracted := selected.filterMap (fun i => l[i]?)
  let remaining := keepNotMem l selected
  let adjusted := t - (selected.filter (fun i => decide (i < t))).length
  remaining.take adjusted ++ extracted ++ remaining.drop adjusted

/-- An item rectangle in viewport coordinates, as returned by
`visualItemRect`.  Qt's `QRect` stores integer edges, with
`right = left + width - 1`. -/
structure Rect where
  left : Int
  top : Int
  right : Int
  bottom : Int
deriving DecidableEq

instance : Inhabited Rect := ⟨⟨0, 0, 0, 0⟩⟩

/-- `QRect.center().x()`: `(x1 + x2) / 2` with C integer division
(truncation toward zero). -/
def Rect.centerX (r : Rect) : Int :=
  Int.tdiv (r.left + r.right) 2

/-- The row-collection loop of `PageList._compute_drop_position`
(lines 271-276): every item whose tolerance-expanded vertical span contains
the pointer's y joins the active row, paired with its index. -/
def rowItemsAux (py tol : Int) : List Rect → Nat → List (Nat × Rect)
  | [], _ => []
  | r :: rs, i =>
    if r.top - tol ≤ py ∧ py ≤ r.bottom + tol then
      (i, r) :: rowItemsAux py tol rs (i + 1)
    else
      rowItemsAux py tol rs (i + 1)

/-- The active row of `_compute_drop_position`, indices counted from 0. -/
def rowItems (rects : List Rect) (py tol : Int) : List (Nat × Rect) :=
  rowItemsAux py tol rects 0

/-- Stable insertion into a list sorted by left edge: the new element goes
before the first element whose left edge is not smaller.  Helper for
`sortByLeft`. -/
def insertByLeft (x : Nat × Rect) : List (Nat × Rect) → List (Nat × Rect)
  | [] => [x]
  | y :: ys => if y.2.left < x.2.left then y :: insertByLeft x ys else x :: y :: ys

/-- `row.sort(key=lambda t: t[1].left())` of `_compute_drop_position`
(line 288).  Python's `list.sort` is a stable sort by the key, and a stable
sort is uniquely determined by the list and the key order, so it is modelled
here by stable insertion sort. -/
def sortByLeft : List (Nat × Rect) → List (Nat × Rect)
  | [] => []
  | x :: xs => insertByLeft x (sortByLeft xs)

/-- `PageList._compute_drop_position` (lines 251-299), with the returned
rectangle omitted (it only feeds the marker's geometry): result is
`(targetIndex, markerAtLeft)`.  `rects` lists the visual rectangle of every
item in row order; `spacing` is `self.spacing()`; `tol = max(6, spacing)`.
The active row is sorted by left edge, then the first item whose horizontal
center exceeds `px` wins; if none does, the row's last item is returned with
the marker on its right. -/
def compute_drop_position (rects : List Rect) (px py spacing : Int) : Nat × Bool :=
  match rects with
  | [] => (0, true)
  | r0 :: _ =>
    let tol := max 6 spacing
    match rowItems rects py tol with
    | [] => if py < r0.top then (0, true) else (rects.length - 1, false)
    | rw =>
      let sortedRow := sortByLeft rw
      match sortedRow.find? (fun ir => decide (px < ir.2.centerX)) with
      | some ir => (ir.1, true)
      | none => ((sortedRow.getLastD (0, r0)).1, false)

/-! ## Export pipeline (`MainWindow.create_pdf`, lines 608-654) -/

/-- `PageRef` (lines 24-27): one page of one source PDF. -/
structure PageRef where
  src_path : String
  page_index : Nat
deriving DecidableEq

/-- Fuel-driven digit extraction; `fuel ≥ n + 1` always suffices because the
argument shrinks by a factor of ten each step.  Accumulates digits least
significant first into `acc`. -/
def decDigitsAux : Nat → Nat → List Char → List Char
  | 0, _, acc => acc
  | fuel + 1, n, acc =>
    if n < 10 then Nat.digitChar n :: acc
    else decDigitsAux fuel (n / 10) (Nat.digitChar (n % 10) :: acc)

/-- Decimal digit characters of `n`, most significant first: the decimal
rendering used by Python's `str`/format. -/
def decDigits (n : Nat) : List Char := decDigitsAux (n + 1) n []

/-- Python's `05d` format specifier: the decimal digits left-padded with
zeros to a minimum width of 5 (wider numbers keep all their digits). -/
def pad05 (n : Nat) : List Char :=
  List.replicate (5 - (decDigits n).length) '0' ++ decDigits n

/-- Decimal rendering of a natural number as a string. -/
def decRepr (n : Nat) : String := String.mk (decDigits n)

/-- Temporary single-page file name from line 630: `part_`, then the
sequence counter `idx` formatted with the `05d` specifier, then `.pdf`. -/
def partName (idx : Nat) : String := "part_" ++ String.mk (pad05 idx) ++ ".pdf"

/-- `os.path.join(tmpdir, partName idx)` (line 630). -/
def tmpPath (tmpdir : String) (idx : Nat) : String := tmpdir ++ "/" ++ partName idx

/-- `os.path.basename`: the component after the last path separator,
computed by scanning the characters and restarting at each slash. -/
def basename (s : String) : String :=
  String.mk (s.data.foldl (fun acc c => if c = '/' then [] else acc ++ [c]) [])

/-- Observable result of one `pdfseparate` run (line 633): its exit code, its
captured stderr, and whether the destination file exists afterwards (the
code's `os.path.exists(single_path)` check). -/
structure SepOutcome where
  returncode : Int
  fileCreated : Bool
  stderr : String
deriving DecidableEq

/-- Observable result of the `pdfunite` run (line 639): exit code, captured
stderr, and the content the tool leaves at its destination path.  The code
hands `out_path` directly to the tool, so on failure `wrote` may be a
truncated document. -/
structure UniteOutcome where
  returncode : Int
  stderr : String
  wrote : Option String
deriving DecidableEq

/-- The environment one `create_pdf` call runs in: tool availability
(`command_exists`), the save-dialog answer (`none` models cancel/empty), the
temporary directory path, the pre-existing content at the chosen output path,
and the behaviour of the two external tools (`sep i` is the outcome of the
i-th `pdfseparate` call, counting from 1 like the code's `enumerate`). -/
structure ExportEnv where
  haveSeparate : Bool
  haveUnite : Bool
  savePath : Option String
  tmpdir : String
  outPrev : Option String
  sep : Nat → SepOutcome
  unite : UniteOutcome

/-- External command invocations issued by `create_pdf`, in order:
`pdfseparate -f p -l p src dest` and `pdfunite part... out`. -/
inductive Cmd where
  | separate (firstPage lastPage : Nat) (src dest : String)
  | unite (parts : List String) (dest : String)
deriving DecidableEq

/-- The dialog box `create_pdf` ends with: `info_box("Nothing to export",...)`,
`error_box("Missing tools",...)`, silent return on a cancelled save dialog,
`error_box("Export error", str(ex))`, or `info_box("Done",...)`. -/
inductive ExportReport where
  | nothingToExport
  | missingTools
  | cancelled
  | exportError (msg : String)
  | done (outPath : String)
deriving DecidableEq

/-- Everything observable about one `create_pdf` call: the final dialog, did
execution reach the `command_exists` checks, the external commands run in
order, the content at the chosen output path afterwards, and the temporary
files still on disk afterwards (`tempfile.TemporaryDirectory` removes the
whole directory on every exit from the `with` block, so this is always
`[]`). -/
structure ExportOutcome where
  report : ExportReport
  checkedTools : Bool
  cmds : List Cmd
  outContent : Option String
  tempsAfter : List String
deriving DecidableEq

/-- Line 634: the extraction step succeeded, i.e. not
`r.returncode != 0 or not os.path.exists(single_path)`. -/
def sepOk (o : SepOutcome) : Bool :=
  decide (o.returncode = 0) && o.fileCreated

/-- The `pdfseparate` command of line 631 for one `PageRef`. -/
def sepCmd (pr : PageRef) (dest : String) : Cmd :=
  Cmd.separate (pr.page_index + 1) (pr.page_index + 1) pr.src_path dest

/-- Line 635: `f"pdfseparate failed for basename(src) page p+1\nstderr"`. -/
def sepFailMsg (pr : PageRef) (diag : String) : String :=
  "pdfseparate failed for " ++ basename pr.src_path ++ " page "
    ++ decRepr (pr.page_index + 1) ++ "\n" ++ diag

/-- Line 641: `f"pdfunite failed:\nstderr"`. -/
def uniteFailMsg (diag : String) : String :=
  "pdfunite failed:\n" ++ diag

/-- The extraction loop of `create_pdf` (lines 629-636): for each page, run
`pdfseparate` into the next `part_xxxxx.pdf`; on the first failure raise with
`sepFailMsg` (later pages are not processed), otherwise collect the part
file.  Returns the commands run, the collected part files, and the error
message if the loop raised. -/
def sepLoop (env : ExportEnv) : List PageRef → Nat → List Cmd × List String × Option String
  | [], _ => ([], [], none)
  | pr :: rest, idx =>
    let dest := tmpPath env.tmpdir idx
    let o := env.sep idx
    if sepOk o then
      let r := sepLoop env rest (idx + 1)
      (sepCmd pr dest :: r.1, dest :: r.2.1, r.2.2)
    else
      ([sepCmd pr dest], [], some (sepFailMsg pr o.stderr))

/-- `MainWindow.create_pdf` (lines 610-645).  Guards in code order: empty
arrangement, `command_exists` for both tools, save dialog; then the
extraction loop inside the temporary directory; then `pdfunite` over the
part files in order, writing directly to the chosen output path.  A raised
`RuntimeError` is caught and reported as an export error; the temporary
directory is removed on every path out of the `with` block. -/
def create_pdf (pages : List PageRef) (env : ExportEnv) : ExportOutcome :=
  if pages.isEmpty then
    ⟨ExportReport.nothingToExport, false, [], env.outPrev, []⟩
  else if !(env.haveSeparate && env.haveUnite) then
    ⟨ExportReport.missingTools, true, [], env.outPrev, []⟩
  else
    match env.savePath with
    | none => ⟨ExportReport.cancelled, true, [], env.outPrev, []⟩
    | some outPath =>
      match sepLoop env pages 1 with
      | (cs, _, some msg) => ⟨ExportReport.exportError msg, true, cs, env.outPrev, []⟩
      | (cs, parts, none) =>
        let u := env.unite
        let allCmds := cs ++ [Cmd.unite parts outPath]
        if u.returncode = 0 then
          ⟨ExportReport.done outPath, true, allCmds, u.wrote, []⟩
        else
          ⟨ExportReport.exportError (uniteFailMsg u.stderr), true, allCmds, u.wrote, []⟩

/-- An environment where both tools exist, the user picks `/out.pdf`, every
extraction succeeds and the merge succeeds. -/
def envAllOk : ExportEnv :=
  ⟨true, true, some "/out.pdf", "/tmp", none, fun _ => ⟨0, true, ""⟩, ⟨0, "", some "merged"⟩⟩

/-- An environment where every extraction succeeds but `pdfunite` exits with
code 1 after leaving a truncated document at its destination path. -/
def envMergeFail : ExportEnv :=
  ⟨true, true, some "/out.pdf", "/tmp", none, fun _ => ⟨0, true, ""⟩,
    ⟨1, "boom", some "TRUNCATED"⟩⟩

/-- An environment where the 3rd extraction fails (exit code 1, no file
produced, diagnostic "boom") and every other one succeeds. -/
def envSepFail3 : ExportEnv :=
  ⟨true, true, some "/out.pdf", "/tmp", none,
    fun i => if i = 3 then ⟨1, false, "boom"⟩ else ⟨0, true, ""⟩, ⟨0, "", some "merged"⟩⟩

/-! ## Positional-filter toolkit -/

theorem keepFrom_shift {α : Type} (P : Nat → Bool) (i : Nat) (l : List α) :
    keepFrom P (i + 1) l = keepFrom (fun j => P (j + 1)) i l := by
  induction l generalizing i with
  | nil => rfl
  | cons a l ih =>
    simp only [keepFrom]
    rw [ih]

theorem keepFrom_congr {α : Type} {P Q : Nat → Bool} {i : Nat} (l : List α)
    (h : ∀ j, i ≤ j → P j = Q j) :
    keepFrom P i l = keepFrom Q i l := by
  induction l generalizing i with
  | nil => rfl
  | cons a l ih =>
    simp only [keepFrom]
    rw [h i le_rfl, ih (fun j hj => h j (by omega))]

theorem keepFrom_all_true {α : Type} {P : Nat → Bool} {i : Nat} (l : List α)
    (h : ∀ j, i ≤ j → P j = true) :
    keepFrom P i l = l := by
  induction l generalizing i with
  | nil => rfl
  | cons a l ih =>
    simp only [keepFrom]
    rw [h i le_rfl, if_pos rfl, ih (fun j hj => h j (by omega))]

theorem keepFrom_all_false {α : Type} {P : Nat → Bool} {i : Nat} (l : List α)
    (h : ∀ j, i ≤ j → j < i + l.length → P j = false) :
    keepFrom P i l = [] := by
  induction l generalizing i with
  | nil => rfl
  | cons a l ih =>
    simp only [keepFrom]
    rw [h i le_rfl (by simp), if_neg (by simp)]
    exact ih (fun j h1 h2 => h j (by omega) (by simp at h2 ⊢; omega))

theorem keepFrom_append {α : Type} (P : Nat → Bool) (i : Nat) (l₁ l₂ : List α) :
    keepFrom P i (l₁ ++ l₂) = keepFrom P i l₁ ++ keepFrom P (i + l₁.length) l₂ := by
  induction l₁ generalizing i with
  | nil => simp [keepFrom]
  | cons a l₁ ih =>
    show keepFrom P i (a :: (l₁ ++ l₂)) = _
    simp only [keepFrom]
    rw [ih (i + 1)]
    have harith : i + 1 + l₁.length = i + (a :: l₁).length := by
      simp only [List.length_cons]
      omega
    rw [harith]
    by_cases h : P i = true
    · rw [if_pos h, if_pos h, List.cons_append]
    · rw [if_neg h, if_neg h]

theorem keepFrom_eraseIdx {α : Type} (Q : Nat → Bool) (l : List α) (s i : Nat)
    (hs : s < l.length) :
    keepFrom Q i (l.eraseIdx s) =
      keepFrom (fun q => if q < i + s then Q q else if q = i + s then false else Q (q - 1))
        i l := by
  induction l generalizing s i Q with
  | nil => simp at hs
  | cons a l ih =>
    cases s with
    | zero =>
      show keepFrom Q i l = keepFrom _ i (a :: l)
      simp only [keepFrom]
      rw [if_neg (by simp), keepFrom_shift]
      refine (keepFrom_congr l fun j hj => ?_).symm
      have h1 : ¬ (j + 1 < i + 0) := by omega
      have h2 : ¬ (j + 1 = i + 0) := by omega
      rw [if_neg h1, if_neg h2]
      simp
    | succ s =>
      have hs' : s < l.length := by simp at hs; omega
      show keepFrom Q i (a :: l.eraseIdx s) = keepFrom _ i (a :: l)
      simp only [keepFrom]
      rw [ih Q s (i + 1) hs']
      have hP : (fun q => if q < i + 1 + s then Q q else if q = i + 1 + s then false
            else Q (q - 1))
          = (fun q => if q < i + (s + 1) then Q q else if q = i + (s + 1) then false
            else Q (q - 1)) := by
        funext q
        rw [show i + 1 + s = i + (s + 1) from by omega]
      have hQ : (if i < i + (s + 1) then Q i else if i = i + (s + 1) then false
          else Q (i - 1)) = Q i := if_pos (by omega)
      rw [hP]
      simp only [hQ]

/-! ## Take/insert loop characterisations -/

theorem qtInsert_eq {α : Type} (l : List α) (p : Nat) (x : α) :
    qtInsert l p x = l.take p ++ x :: l.drop p := by
  induction l generalizing p with
  | nil => simp [qtInsert]
  | cons a l ih =>
    cases p with
    | zero => simp [qtInsert]
    | succ p =>
      show List.insertIdx (min (p + 1) (a :: l).length) x (a :: l) = _
      simp only [List.length_cons]
      rw [Nat.succ_min_succ, List.insertIdx_succ_cons, List.take_succ_cons,
        List.drop_succ_cons, List.cons_append]
      rw [show List.insertIdx (min p l.length) x l = qtInsert l p x from rfl, ih p]

theorem insertLoopOpt_somes {α : Type} (xs : List α) :
    ∀ (l : List α) (p : Nat), insertLoopOpt l (xs.map some) p = l.take p ++ xs ++ l.drop p := by
  induction xs with
  | nil => intro l p; simp [insertLoopOpt]
  | cons x xs ih =>
    intro l p
    simp only [List.map_cons, insertLoopOpt]
    rw [qtInsert_eq, ih]
    by_cases h : p ≤ l.length
    · have hlen : (l.take p).length = p := by simp [h]
      have h1 : (l.take p ++ x :: l.drop p).take (p + 1) = l.take p ++ [x] := by
        rw [show p + 1 = (l.take p).length + 1 from by rw [hlen]]
        rw [List.take_append 1, List.take_succ_cons, List.take_zero]
      have h2 : (l.take p ++ x :: l.drop p).drop (p + 1) = l.drop p := by
        rw [show p + 1 = (l.take p).length + 1 from by rw [hlen]]
        rw [List.drop_append 1, List.drop_succ_cons, List.drop_zero]
      rw [h1, h2]
      simp
    · have hp : l.length ≤ p := by omega
      have hxl : (l.take p ++ x :: l.drop p) = l ++ [x] := by
        rw [List.take_of_length_le hp, List.drop_eq_nil_of_le hp]
      rw [hxl, List.take_of_length_le (by simp; omega),
        List.drop_eq_nil_of_le (by simp; omega),
        List.take_of_length_le hp, List.drop_eq_nil_of_le hp]
      simp

theorem takeItemsAux_eq {α : Type} (rs : List Nat) :
    ∀ (l : List α) (k : Nat), List.Pairwise (· < ·) rs →
      (∀ r ∈ rs, k ≤ r) → (∀ r ∈ rs, r - k < l.length) →
      takeItemsAux l rs k =
        (rs.map (fun r => l[r - k]?), keepFrom (fun q => decide ((q + k) ∉ rs)) 0 l) := by
  induction rs with
  | nil =>
    intro l k _ _ _
    simp only [takeItemsAux, List.map_nil]
    rw [keepFrom_all_true l (fun j _ => by simp)]
  | cons r rs ih =>
    intro l k hpw hge hlt
    obtain ⟨hhead, htail⟩ := List.pairwise_cons.mp hpw
    have hrk : r - k < l.length := hlt r (List.mem_cons_self r rs)
    have hrge : k ≤ r := hge r (List.mem_cons_self r rs)
    have hlen : (l.eraseIdx (r - k)).length = l.length - 1 := by
      rw [List.length_eraseIdx, if_pos hrk]
    have hih := ih (l.eraseIdx (r - k)) (k + 1) htail
      (fun r2 h2 => by have := hhead r2 h2; omega)
      (fun r2 h2 => by
        have h3 := hlt r2 (List.mem_cons_of_mem r h2)
        have h4 := hhead r2 h2
        rw [hlen]; omega)
    simp only [takeItemsAux, hih]
    refine Prod.ext ?_ ?_
    · simp only [List.map_cons]
      refine congrArg _ (List.map_congr_left fun r2 h2 => ?_)
      have h4 := hhead r2 h2
      rw [List.getElem?_eraseIdx, if_neg (by omega)]
      rw [show r2 - (k + 1) + 1 = r2 - k from by omega]
    · show keepFrom _ 0 (l.eraseIdx (r - k)) = keepFrom _ 0 l
      rw [keepFrom_eraseIdx _ l (r - k) 0 hrk]
      refine keepFrom_congr l fun j _ => ?_
      by_cases hj1 : j < r - k
      · rw [if_pos (by omega)]
        refine decide_eq_decide.mpr ?_
        constructor
        · intro hnot hmem
          rcases List.mem_cons.mp hmem with h | h
          · omega
          · exact absurd (hhead _ h) (by omega)
        · intro _ hmem
          exact absurd (hhead _ hmem) (by omega)
      · by_cases hj2 : j = r - k
        · rw [if_neg (by omega), if_pos (by omega)]
          have : j + k = r := by omega
          rw [this]
          simp [List.mem_cons_self]
        · rw [if_neg (by omega), if_neg (by omega)]
          refine decide_eq_decide.mpr ?_
          rw [show j - 1 + (k + 1) = j + k from by omega]
          constructor
          · intro hnot hmem
            rcases List.mem_cons.mp hmem with h | h
            · omega
            · exact hnot h
          · intro hnot hmem
            exact hnot (List.mem_cons_of_mem r hmem)

theorem map_getElem?_eq_map_some {α : Type} (rs : List Nat) (l : List α)
    (h : ∀ r ∈ rs, r < l.length) :
    rs.map (fun r => l[r]?) = (rs.filterMap (fun r => l[r]?)).map some := by
  induction rs with
  | nil => rfl
  | cons r rs ih =>
    have hlt' : r < l.length := h r (List.mem_cons_self r rs)
    have hv := List.getElem?_eq_getElem hlt'
    simp only [List.map_cons, List.filterMap_cons, hv]
    rw [ih (fun r2 h2 => h r2 (List.mem_cons_of_mem r h2))]

/-- The central refinement: `PageList.dropEvent`'s take/shift/insert procedure
computes exactly the two-phase extract/adjust/reinsert rule of the spec, for
any strictly increasing in-range selection. -/
theorem dropEvent_eq_relocateSpec {α : Type} (l : List α) (rs : List Nat) (t : Nat)
    (hpw : List.Pairwise (· < ·) rs) (hlt : ∀ r ∈ rs, r < l.length) :
    dropEvent l rs t = relocateSpec l rs t := by
  unfold dropEvent relocateSpec
  rw [takeItemsAux_eq rs l 0 hpw (fun r _ => Nat.zero_le r) (by simpa using hlt)]
  have hmap : rs.map (fun r => l[r - 0]?) = rs.map (fun r => l[r]?) := by simp
  have hkeep : keepFrom (fun q => decide ((q + 0) ∉ rs)) 0 l = keepNotMem l rs := by
    unfold keepNotMem
    exact keepFrom_congr l fun j _ => by rw [Nat.add_zero]
  simp only [hmap, hkeep]
  rw [map_getElem?_eq_map_some rs l hlt, insertLoopOpt_somes]
  rw [List.countP_eq_length_filter]

/-! ## The drop relocation is a permutation -/

theorem perm_cons_eraseIdx {α : Type} :
    ∀ (l : List α) (s : Nat) (v : α), l[s]? = some v → l.Perm (v :: l.eraseIdx s) := by
  intro l
  induction l with
  | nil => intro s v hv; simp at hv
  | cons a l ih =>
    intro s v hv
    cases s with
    | zero =>
      simp at hv
      rw [hv]
      rfl
    | succ s =>
      have : (a :: l.eraseIdx s) = (a :: l).eraseIdx (s + 1) := rfl
      rw [← this]
      rw [List.getElem?_cons_succ] at hv
      exact ((ih s v hv).cons a).trans (List.Perm.swap v a _)

theorem takeItemsAux_perm {α : Type} (rs : List Nat) :
    ∀ (l : List α) (k : Nat),
      l.Perm ((takeItemsAux l rs k).1.reduceOption ++ (takeItemsAux l rs k).2) := by
  induction rs with
  | nil => intro l k; simp [takeItemsAux]
  | cons r rs ih =>
    intro l k
    simp only [takeItemsAux]
    cases hv : l[r - k]? with
    | none =>
      rw [List.eraseIdx_of_length_le (List.getElem?_eq_none_iff.mp hv)]
      simpa [List.reduceOption_cons_of_none] using ih l (k + 1)
    | some v =>
      refine (perm_cons_eraseIdx l (r - k) v hv).trans ?_
      simp only [List.reduceOption_cons_of_some]
      exact (ih (l.eraseIdx (r - k)) (k + 1)).cons v

theorem insertLoopOpt_perm {α : Type} (its : List (Option α)) :
    ∀ (l : List α) (p : Nat), (insertLoopOpt l its p).Perm (its.reduceOption ++ l) := by
  induction its with
  | nil => intro l p; simp [insertLoopOpt]
  | cons o its ih =>
    intro l p
    cases o with
    | none => simpa [insertLoopOpt, List.reduceOption_cons_of_none] using ih l (p + 1)
    | some x =>
      simp only [insertLoopOpt, List.reduceOption_cons_of_some]
      refine (ih (qtInsert l p x) (p + 1)).trans ?_
      have h1 : (qtInsert l p x).Perm (x :: l) := by
        rw [qtInsert_eq]
        exact List.perm_middle.trans (by rw [List.take_append_drop])
      refine (List.Perm.append_left its.reduceOption h1).trans ?_
      exact List.perm_middle

/-- Dropping a selection anywhere permutes the sequence: nothing is lost or
duplicated, whatever the selection and target. -/
theorem dropEvent_perm {α : Type} (l : List α) (rs : List Nat) (t : Nat) :
    (dropEvent l rs t).Perm l := by
  unfold dropEvent
  exact (insertLoopOpt_perm _ _ _).trans (takeItemsAux_perm rs l 0).symm

/-! ## Removal in decreasing row order -/

theorem keepFrom_congr_bounded {α : Type} {P Q : Nat → Bool} {i : Nat} (l : List α)
    (h : ∀ j, i ≤ j → j < i + l.length → P j = Q j) :
    keepFrom P i l = keepFrom Q i l := by
  induction l generalizing i with
  | nil => rfl
  | cons a l ih =>
    simp only [List.length_cons] at h
    simp only [keepFrom]
    rw [h i le_rfl (by omega), ih (fun j h1 h2 => h j (by omega) (by omega))]

theorem keepFrom_true_bounded {α : Type} {P : Nat → Bool} {i : Nat} (l : List α)
    (h : ∀ j, i ≤ j → j < i + l.length → P j = true) :
    keepFrom P i l = l := by
  induction l generalizing i with
  | nil => rfl
  | cons a l ih =>
    simp only [List.length_cons] at h
    simp only [keepFrom]
    rw [h i le_rfl (by omega), if_pos rfl, ih (fun j h1 h2 => h j (by omega) (by omega))]

/-- `remove_selected` visited in strictly decreasing row order removes exactly
the rows' items: the result is the original sequence restricted to positions
outside the row set, renumbered contiguously; out-of-range rows are ignored. -/
theorem remove_selected_eq_keepNotMem {α : Type} :
    ∀ (rows : List Nat) (l : List α), List.Pairwise (· > ·) rows →
      remove_selected l rows = keepNotMem l rows := by
  intro rows
  induction rows with
  | nil =>
    intro l _
    show l = keepNotMem l []
    unfold keepNotMem
    rw [keepFrom_all_true l (fun j _ => by simp)]
  | cons r rs ih =>
    intro l hpw
    obtain ⟨hhead, htail⟩ := List.pairwise_cons.mp hpw
    show remove_selected (l.eraseIdx r) rs = keepNotMem l (r :: rs)
    rw [ih (l.eraseIdx r) htail]
    unfold keepNotMem
    by_cases hr : r < l.length
    · rw [keepFrom_eraseIdx _ l r 0 hr]
      refine keepFrom_congr l fun j _ => ?_
      by_cases hj1 : j < r
      · rw [if_pos (by omega)]
        refine decide_eq_decide.mpr ?_
        constructor
        · intro hnot hmem
          rcases List.mem_cons.mp hmem with h | h
          · omega
          · exact hnot h
        · intro hnot hmem
          exact hnot (List.mem_cons_of_mem r hmem)
      · by_cases hj2 : j = r
        · rw [if_neg (by omega), if_pos (by omega), hj2]
          simp [List.mem_cons_self]
        · rw [if_neg (by omega), if_neg (by omega)]
          refine decide_eq_decide.mpr ?_
          constructor
          · intro hnot hmem
            rcases List.mem_cons.mp hmem with h | h
            · omega
            · exact absurd (hhead _ h) (by omega)
          · intro _ hmem
            exact absurd (hhead _ hmem) (by omega)
    · rw [List.eraseIdx_of_length_le (by omega)]
      refine keepFrom_congr_bounded l fun j _ h2 => ?_
      refine decide_eq_decide.mpr ?_
      have hjr : j ≠ r := by simp at h2; omega
      constructor
      · intro hnot hmem
        rcases List.mem_cons.mp hmem with h | h
        · exact hjr h
        · exact hnot h
      · intro hnot hmem
        exact hnot (List.mem_cons_of_mem r hmem)

/-! ## Relocating a contiguous block onto itself -/

theorem keepNotMem_range' {α : Type} (l : List α) (p m : Nat) (h : p + m ≤ l.length) :
    keepNotMem l (List.range' p m) = l.take p ++ l.drop (p + m) := by
  have hsplit : l = l.take p ++ ((l.drop p).take m ++ (l.drop p).drop m) := by
    rw [List.take_append_drop, List.take_append_drop]
  unfold keepNotMem
  conv_lhs => rw [hsplit]
  rw [keepFrom_append, keepFrom_append]
  have hlp : (l.take p).length = p := by simp; omega
  have hlm : ((l.drop p).take m).length = m := by simp; omega
  rw [hlp, hlm]
  have h1 : keepFrom (fun i => decide (i ∉ List.range' p m)) 0 (l.take p) = l.take p := by
    refine keepFrom_true_bounded _ fun j _ h2 => ?_
    rw [hlp] at h2
    simp [List.mem_range'_1]
    omega
  have h2 : keepFrom (fun i => decide (i ∉ List.range' p m)) p ((l.drop p).take m) = [] := by
    refine keepFrom_all_false _ fun j hj1 hj2 => ?_
    rw [hlm] at hj2
    simp [List.mem_range'_1]
    omega
  have h3 : keepFrom (fun i => decide (i ∉ List.range' p m)) (p + m) ((l.drop p).drop m)
      = (l.drop p).drop m := by
    refine keepFrom_true_bounded _ fun j hj1 _ => ?_
    simp [List.mem_range'_1]
    omega
  rw [show (0 : Nat) + p = p from by omega]
  rw [h1, h2, h3, List.drop_drop]
  simp

theorem filterMap_getElem?_range' {α : Type} (l : List α) :
    ∀ (p m : Nat), p + m ≤ l.length →
      (List.range' p m).filterMap (fun i => l[i]?) = (l.drop p).take m := by
  intro p m
  induction m generalizing p with
  | zero => intro _; simp
  | succ m ih =>
    intro h
    rw [List.range'_succ]
    have hp : p < l.length := by omega
    have hv := List.getElem?_eq_getElem hp
    simp only [List.filterMap_cons, hv]
    rw [ih (p + 1) (by omega)]
    rw [List.drop_eq_getElem_cons hp, List.take_succ_cons]

theorem countP_lt_range' :
    ∀ (m p t : Nat), p ≤ t → t ≤ p + m →
      (List.range' p m).countP (fun i => decide (i < t)) = t - p := by
  intro m
  induction m with
  | zero => intro p t h1 h2; simp; omega
  | succ m ih =>
    intro p t h1 h2
    rw [List.range'_succ, List.countP_cons]
    by_cases hpt : p < t
    · rw [ih (p + 1) t (by omega) (by omega), if_pos (by simpa using hpt)]
      omega
    · have hpt' : p = t := by omega
      rw [if_neg (by simpa using hpt)]
      have hz : (List.range' (p + 1) m).countP (fun i => decide (i < t)) = 0 := by
        rw [List.countP_eq_zero]
        intro a ha
        rw [List.mem_range'_1] at ha
        simp
        omega
      rw [hz]
      omega

/-- Relocating the contiguous selection `p, p+1, ..., p+m-1` to any drop index
between `p` and `p+m` reproduces the original sequence exactly. -/
theorem dropEvent_contiguous_self {α : Type} (l : List α) (p m t : Nat)
    (hlen : p + m ≤ l.length) (ht1 : p ≤ t) (ht2 : t ≤ p + m) :
    dropEvent l (List.range' p m) t = l := by
  rw [dropEvent_eq_relocateSpec l (List.range' p m) t (List.pairwise_lt_range' p m)
    (fun r hr => by rw [List.mem_range'_1] at hr; omega)]
  unfold relocateSpec
  rw [keepNotMem_range' l p m hlen, filterMap_getElem?_range' l p m hlen]
  rw [← List.countP_eq_length_filter, countP_lt_range' m p t ht1 ht2]
  have hadj : t - (t - p) = p := by omega
  rw [hadj]
  have hlp : (l.take p).length = p := by simp; omega
  have hA : List.take p (l.take p ++ l.drop (p + m)) = l.take p := by
    rw [List.take_append_eq_append_take, hlp, List.take_take, min_self, Nat.sub_self,
      List.take_zero, List.append_nil]
  have hC : List.drop p (l.take p ++ l.drop (p + m)) = l.drop (p + m) := by
    rw [List.drop_append_eq_append_drop, hlp, List.drop_eq_nil_of_le (by rw [hlp]),
      Nat.sub_self, List.drop_zero, List.nil_append]
  show List.take p (l.take p ++ l.drop (p + m)) ++ (l.drop p).take m
      ++ List.drop p (l.take p ++ l.drop (p + m)) = l
  rw [hA, hC, List.append_assoc]
  conv_rhs => rw [← List.take_append_drop p l]
  refine congrArg _ ?_
  conv_rhs => rw [← List.take_append_drop m (l.drop p)]
  rw [List.drop_drop]

/-! ## Drop planner geometry -/

theorem rowItemsAux_nil (py tol : Int) :
    ∀ (rects : List Rect) (i : Nat),
      (∀ r ∈ rects, ¬ (r.top - tol ≤ py ∧ py ≤ r.bottom + tol)) →
      rowItemsAux py tol rects i = [] := by
  intro rects
  induction rects with
  | nil => intro i _; rfl
  | cons r rects ih =>
    intro i h
    simp only [rowItemsAux]
    rw [if_neg (h r (List.mem_cons_self r rects))]
    exact ih (i + 1) (fun r2 h2 => h r2 (List.mem_cons_of_mem r h2))

theorem insertByLeft_front (x : Nat × Rect) (xs : List (Nat × Rect))
    (h : ∀ y ∈ xs, x.2.left ≤ y.2.left) :
    insertByLeft x xs = x :: xs := by
  cases xs with
  | nil => rfl
  | cons y ys =>
    simp only [insertByLeft]
    rw [if_neg (not_lt.mpr (h y (List.mem_cons_self y ys)))]

theorem sortByLeft_of_sorted :
    ∀ (row : List (Nat × Rect)),
      List.Pairwise (fun a b => a.2.left ≤ b.2.left) row → sortByLeft row = row := by
  intro row
  induction row with
  | nil => intro _; rfl
  | cons x xs ih =>
    intro hpw
    obtain ⟨hhead, htail⟩ := List.pairwise_cons.mp hpw
    show insertByLeft x (sortByLeft xs) = x :: xs
    rw [ih htail, insertByLeft_front x xs hhead]

/-! ## Claim theorems: the reordering engine -/

/-- C1: for every sequence, every non-empty strictly increasing set of valid
selected indices and every drop target index `t ≤ count`, the relocation that
`PageList.dropEvent` performs equals the two-phase rule (extract the selected
items in order, set `adjustedTarget = t` minus the number of selected indices
below `t`, reinsert the block at `adjustedTarget` into the remaining items);
in particular relocating selected indices 1 and 3 of `[A,B,C,D,E]` to target
4 yields `[A,C,B,D,E]`. -/
theorem claim_C1_relocate_two_phase :
    (∀ (α : Type) (l : List α) (selected : List Nat) (t : Nat),
        List.Pairwise (· < ·) selected → selected ≠ [] →
        (∀ r ∈ selected, r < l.length) → t ≤ l.length →
        dropEvent l selected t = relocateSpec l selected t)
    ∧ dropEvent ['A', 'B', 'C', 'D', 'E'] [1, 3] 4 = ['A', 'C', 'B', 'D', 'E'] := by
  constructor
  · intro α l selected t hpw _ hlt _
    exact dropEvent_eq_relocateSpec l selected t hpw hlt
  · decide

/-- Witness for C1: the general part applied to the concrete five-item
sequence with selection at indices 1 and 3 and drop target 4. -/
theorem claim_C1_witness :
    dropEvent ['A', 'B', 'C', 'D', 'E'] [1, 3] 4
      = relocateSpec ['A', 'B', 'C', 'D', 'E'] [1, 3] 4 :=
  claim_C1_relocate_two_phase.1 Char ['A', 'B', 'C', 'D', 'E'] [1, 3] 4
    (by decide) (by decide) (by decide) (by decide)

/-- C10: with a non-empty strictly increasing valid selection and a drop
index at most the count, the drop relocation is a permutation of the original
sequence: same length, and every item occurs exactly as often afterwards. -/
theorem claim_C10_relocate_permutation :
    ∀ (α : Type) [DecidableEq α] (l : List α) (selected : List Nat) (t : Nat),
      List.Pairwise (· < ·) selected → selected ≠ [] →
      (∀ r ∈ selected, r < l.length) → t ≤ l.length →
      (dropEvent l selected t).length = l.length ∧
        ∀ a, (dropEvent l selected t).count a = l.count a := by
  intro α _ l selected t _ _ _ _
  have hperm := dropEvent_perm l selected t
  exact ⟨hperm.length_eq, hperm.count_eq⟩

/-- Witness for C10: permutation facts at a concrete input. -/
theorem claim_C10_witness :
    (dropEvent [10, 20, 30, 40, 50] [1, 3] 4).length = ([10, 20, 30, 40, 50] : List Nat).length
      ∧ ∀ a, (dropEvent [10, 20, 30, 40, 50] [1, 3] 4).count a
          = ([10, 20, 30, 40, 50] : List Nat).count a :=
  claim_C10_relocate_permutation Nat [10, 20, 30, 40, 50] [1, 3] 4
    (by decide) (by decide) (by decide) (by decide)

/-- C4: removing a set of rows (visited in decreasing order, as
`remove_selected` and `_trash_from_list` do) yields exactly the original
sequence restricted to the indices not removed, renumbered contiguously as in
one atomic step; an out-of-range index is ignored.  Includes the concrete
case: removing indices 1 and 3 from a 5-item sequence keeps the items
originally at 0, 2, 4 as the new 0, 1, 2. -/
theorem claim_C4_remove_restriction :
    (∀ (α : Type) (l : List α) (rows : List Nat), List.Pairwise (· > ·) rows →
        remove_selected l rows = keepNotMem l rows)
    ∧ remove_selected ['a', 'b', 'c', 'd', 'e'] [3, 1] = ['a', 'c', 'e']
    ∧ remove_selected ['a', 'b', 'c'] [7] = ['a', 'b', 'c'] := by
  refine ⟨?_, by decide, by decide⟩
  intro α l rows hpw
  exact remove_selected_eq_keepNotMem rows l hpw

/-- Witness for C4: the general restriction equation at a concrete input with
an out-of-range row included. -/
theorem claim_C4_witness :
    remove_selected ['a', 'b', 'c', 'd', 'e'] [9, 3, 1]
      = keepNotMem ['a', 'b', 'c', 'd', 'e'] [9, 3, 1] :=
  claim_C4_remove_restriction.1 Char ['a', 'b', 'c', 'd', 'e'] [9, 3, 1] (by decide)

/-- C9 counterexample: for the sequence `[0,1,2,3,4]` and the non-empty valid
selection at indices 1 and 3, relocating to any target index 0..5 changes the
sequence, so no target — in particular none the selection "effectively
occupies" — leaves the resulting sequence equal to the original. -/
theorem claim_C9_counterexample :
    (List.range 6).all
      (fun t => decide (dropEvent ([0, 1, 2, 3, 4] : List Nat) [1, 3] t ≠ [0, 1, 2, 3, 4]))
      = true := by
  decide

/-- C9 (amended): relocating a non-empty contiguous selection
`p, ..., p+m-1` to any target index it effectively occupies (any `t` with
`p ≤ t ≤ p + m`) leaves the sequence exactly unchanged; for non-contiguous
selections only order-insensitive (permutation) equality holds. -/
theorem claim_C9_contiguous_self :
    ∀ (α : Type) (l : List α) (p m t : Nat), 0 < m → p + m ≤ l.length →
      p ≤ t → t ≤ p + m →
      dropEvent l (List.range' p m) t = l := by
  intro α l p m t _ hlen ht1 ht2
  exact dropEvent_contiguous_self l p m t hlen ht1 ht2

/-- Witness for C9: the contiguous selection at indices 1, 2 of a four-item
sequence relocated to target 2 is unchanged. -/
theorem claim_C9_witness :
    dropEvent [10, 20, 30, 40] (List.range' 1 2) 2 = [10, 20, 30, 40] :=
  claim_C9_contiguous_self Nat [10, 20, 30, 40] 1 2 2
    (by decide) (by decide) (by decide) (by decide)

/-- C6: on an empty collection the drop planner answers `(0, true)`; on a
non-empty collection where no item's tolerance-expanded vertical span
contains the pointer's y, it answers `(0, true)` when the pointer is above
the first item's rectangle and `(lastIndex, false)` otherwise. -/
theorem claim_C6_empty_and_clamp :
    (∀ (px py spacing : Int), compute_drop_position [] px py spacing = (0, true))
    ∧ (∀ (r0 : Rect) (rest : List Rect) (px py spacing : Int),
        (∀ r ∈ r0 :: rest,
          ¬ (r.top - max 6 spacing ≤ py ∧ py ≤ r.bottom + max 6 spacing)) →
        compute_drop_position (r0 :: rest) px py spacing =
          if py < r0.top then (0, true) else ((r0 :: rest).length - 1, false)) := by
  constructor
  · intro px py spacing
    rfl
  · intro r0 rest px py spacing h
    have hrow : rowItems (r0 :: rest) py (max 6 spacing) = [] :=
      rowItemsAux_nil py (max 6 spacing) (r0 :: rest) 0 h
    simp only [compute_drop_position, hrow]

/-- Witness for C6: pointer above the only row, and below it. -/
theorem claim_C6_witness :
    compute_drop_position [⟨10, 50, 90, 150⟩, ⟨110, 50, 190, 150⟩] 40 10 10
        = (if (10 : Int) < 50 then ((0 : Nat), true) else (1, false))
      ∧ compute_drop_position [⟨10, 50, 90, 150⟩, ⟨110, 50, 190, 150⟩] 40 300 10
        = (if (300 : Int) < 50 then ((0 : Nat), true) else (1, false)) :=
  ⟨claim_C6_empty_and_clamp.2 ⟨10, 50, 90, 150⟩ [⟨110, 50, 190, 150⟩] 40 10 10 (by decide),
   claim_C6_empty_and_clamp.2 ⟨10, 50, 90, 150⟩ [⟨110, 50, 190, 150⟩] 40 300 10 (by decide)⟩

/-- C3: when the active row is non-empty (the pointer lies inside it) and its
items are listed left-to-right by left edge, the planner answers `(i, true)`
for the first row item whose horizontal center strictly exceeds the pointer's
x, and `(rightmostItemIndex, false)` when the pointer is at or right of every
center; consequently, with two same-row items with centers 50 and 150,
pointer x 49 targets before the left item, x 51 before the right item, and
x 151 after the right item. -/
theorem claim_C3_center_boundary :
    (∀ (rects : List Rect) (px py spacing : Int),
        ∀ (hne : rowItems rects py (max 6 spacing) ≠ []),
        List.Pairwise (fun a b => a.2.left ≤ b.2.left) (rowItems rects py (max 6 spacing)) →
        compute_drop_position rects px py spacing =
          match (rowItems rects py (max 6 spacing)).find?
              (fun ir => decide (px < ir.2.centerX)) with
          | some ir => (ir.1, true)
          | none => (((rowItems rects py (max 6 spacing)).getLast hne).1, false))
    ∧ compute_drop_position [⟨10, 0, 90, 100⟩, ⟨110, 0, 190, 100⟩] 49 50 10 = (0, true)
    ∧ compute_drop_position [⟨10, 0, 90, 100⟩, ⟨110, 0, 190, 100⟩] 51 50 10 = (1, true)
    ∧ compute_drop_position [⟨10, 0, 90, 100⟩, ⟨110, 0, 190, 100⟩] 151 50 10 = (1, false) := by
  refine ⟨?_, by decide, by decide, by decide⟩
  intro rects px py spacing hne hsorted
  cases rects with
  | nil => exact absurd rfl hne
  | cons r0 rest =>
    have hlast : ((rowItems (r0 :: rest) py (max 6 spacing)).getLast hne)
        = (rowItems (r0 :: rest) py (max 6 spacing)).getLastD (0, r0) := by
      rw [List.getLastD_eq_getLast?, List.getLast?_eq_getLast _ hne, Option.getD_some]
    rw [hlast]
    cases hrw : rowItems (r0 :: rest) py (max 6 spacing) with
    | nil => exact absurd hrw hne
    | cons a row' =>
      rw [hrw] at hsorted
      simp only [compute_drop_position, hrw]
      rw [sortByLeft_of_sorted _ hsorted]

/-- Witness for C3: the general row rule applied to the concrete two-item row
with centers 50 and 150 at pointer x 151. -/
theorem claim_C3_witness :
    compute_drop_position [⟨10, 0, 90, 100⟩, ⟨110, 0, 190, 100⟩] 151 50 10 =
      match (rowItems [⟨10, 0, 90, 100⟩, ⟨110, 0, 190, 100⟩] 50 (max 6 10)).find?
          (fun ir => decide ((151 : Int) < ir.2.centerX)) with
      | some ir => (ir.1, true)
      | none => (((rowItems [⟨10, 0, 90, 100⟩, ⟨110, 0, 190, 100⟩] 50 (max 6 10)).getLast
          (by decide)).1, false) :=
  claim_C3_center_boundary.1 [⟨10, 0, 90, 100⟩, ⟨110, 0, 190, 100⟩] 151 50 10
    (by decide) (by decide)

/-! ## Decimal digits and lexicographic order of the part names -/

/-- The fixed-width decimal expansion: exactly `k` digit characters, most
significant first, of a number below `10^k`. -/
def expDigits : Nat → Nat → List Char
  | 0, _ => []
  | k + 1, n => Nat.digitChar (n / 10 ^ k) :: expDigits k (n % 10 ^ k)

theorem expDigits_length : ∀ (k n : Nat), (expDigits k n).length = k := by
  intro k
  induction k with
  | zero => intro n; rfl
  | succ k ih => intro n; simp [expDigits, ih]

theorem decDigitsAux_irrel :
    ∀ (f1 : Nat), ∀ (f2 n : Nat) (acc : List Char), n < f1 → n < f2 →
      decDigitsAux f1 n acc = decDigitsAux f2 n acc := by
  intro f1
  induction f1 with
  | zero => intro f2 n acc h1 _; omega
  | succ f1 ih =>
    intro f2 n acc h1 h2
    cases f2 with
    | zero => omega
    | succ f2 =>
      simp only [decDigitsAux]
      by_cases h : n < 10
      · rw [if_pos h, if_pos h]
      · rw [if_neg h, if_neg h]
        have hdiv : n / 10 < n := Nat.div_lt_self (by omega) (by omega)
        exact ih f2 (n / 10) _ (by omega) (by omega)

theorem decDigitsAux_acc :
    ∀ (f n : Nat) (acc : List Char),
      decDigitsAux f n acc = decDigitsAux f n [] ++ acc := by
  intro f
  induction f with
  | zero => intro n acc; rfl
  | succ f ih =>
    intro n acc
    simp only [decDigitsAux]
    by_cases h : n < 10
    · rw [if_pos h, if_pos h]
      rfl
    · rw [if_neg h, if_neg h, ih (n / 10) (Nat.digitChar (n % 10) :: acc),
        ih (n / 10) [Nat.digitChar (n % 10)], List.append_assoc]
      rfl

theorem decDigits_lt10 (n : Nat) (h : n < 10) : decDigits n = [Nat.digitChar n] := by
  unfold decDigits decDigitsAux
  rw [if_pos h]

theorem decDigits_ge10 (n : Nat) (h : 10 ≤ n) :
    decDigits n = decDigits (n / 10) ++ [Nat.digitChar (n % 10)] := by
  have hdiv : n / 10 < n := Nat.div_lt_self (by omega) (by omega)
  show decDigitsAux (n + 1) n [] = _
  simp only [decDigitsAux]
  rw [if_neg (by omega), decDigitsAux_acc n (n / 10) [Nat.digitChar (n % 10)]]
  rw [decDigitsAux_irrel n (n / 10 + 1) (n / 10) [] (by omega) (by omega)]
  rfl

theorem expDigits_peel :
    ∀ (k n : Nat), n < 10 ^ (k + 1) →
      expDigits (k + 1) n = expDigits k (n / 10) ++ [Nat.digitChar (n % 10)] := by
  intro k
  induction k with
  | zero =>
    intro n h
    simp only [expDigits, pow_zero, Nat.div_one, Nat.mod_one, pow_succ] at h ⊢
    rw [Nat.mod_eq_of_lt (by omega)]
    rfl
  | succ k ih =>
    intro n h
    have hmod : n % 10 ^ (k + 1) < 10 ^ (k + 1) :=
      Nat.mod_lt n (Nat.pos_pow_of_pos (k + 1) (by omega))
    show Nat.digitChar (n / 10 ^ (k + 1)) :: expDigits (k + 1) (n % 10 ^ (k + 1)) = _
    rw [ih (n % 10 ^ (k + 1)) hmod]
    have h1 : n % 10 ^ (k + 1) / 10 = n / 10 % 10 ^ k := by
      rw [show (10 : Nat) ^ (k + 1) = 10 ^ k * 10 from pow_succ 10 k]
      exact Nat.mod_mul_left_div_self n 10 (10 ^ k)
    have h2 : n % 10 ^ (k + 1) % 10 = n % 10 :=
      Nat.mod_mod_of_dvd n (dvd_pow_self 10 (Nat.succ_ne_zero k))
    have h3 : n / 10 ^ (k + 1) = n / 10 / 10 ^ k := by
      rw [Nat.div_div_eq_div_mul, ← pow_succ' 10 k]
    rw [h1, h2, h3]
    rfl

theorem decDigits_eq_expDigits :
    ∀ (k n : Nat), 10 ^ k ≤ n → n < 10 ^ (k + 1) → decDigits n = expDigits (k + 1) n := by
  intro k
  induction k with
  | zero =>
    intro n h1 h2
    simp only [pow_zero, pow_one] at h1 h2
    rw [decDigits_lt10 n h2]
    show _ = Nat.digitChar (n / 1) :: expDigits 0 (n % 1)
    rw [Nat.div_one]
    rfl
  | succ k ih =>
    intro n h1 h2
    have h10 : 10 ≤ n := le_trans (Nat.pow_le_pow_right (by omega) (by omega) :
      (10 : Nat) ^ 1 ≤ 10 ^ (k + 1)) (by simpa using h1)
    rw [decDigits_ge10 n h10]
    have hd1 : 10 ^ k ≤ n / 10 := by
      rw [Nat.le_div_iff_mul_le (by omega)]
      calc 10 ^ k * 10 = 10 ^ (k + 1) := (pow_succ 10 k).symm
        _ ≤ n := h1
    have hd2 : n / 10 < 10 ^ (k + 1) := by
      rw [Nat.div_lt_iff_lt_mul (by omega)]
      calc n < 10 ^ (k + 2) := h2
        _ = 10 ^ (k + 1) * 10 := pow_succ 10 (k + 1)
    rw [ih (n / 10) hd1 hd2]
    exact (expDigits_peel (k + 1) n h2).symm

theorem decDigits_length_le :
    ∀ (k n : Nat), n < 10 ^ k → 0 < k → (decDigits n).length ≤ k := by
  intro k
  induction k with
  | zero => intro n _ h; omega
  | succ k ih =>
    intro n h _
    by_cases h10 : n < 10
    · rw [decDigits_lt10 n h10]
      simp
    · have hk : 0 < k := by
        by_contra hk0
        have : k = 0 := by omega
        subst this
        simp at h
        omega
      rw [decDigits_ge10 n (by omega)]
      have := ih (n / 10) (by rw [Nat.div_lt_iff_lt_mul (by omega)]
                              calc n < 10 ^ (k + 1) := h
                                _ = 10 ^ k * 10 := pow_succ 10 k) hk
      simp only [List.length_append, List.length_cons, List.length_nil]
      omega

theorem replicate_pad_eq_expDigits :
    ∀ (k n : Nat), n < 10 ^ k → 0 < k →
      List.replicate (k - (decDigits n).length) '0' ++ decDigits n = expDigits k n := by
  intro k
  induction k with
  | zero => intro n _ h; omega
  | succ k ih =>
    intro n h _
    by_cases h1 : 10 ^ k ≤ n
    · rw [decDigits_eq_expDigits k n h1 h, expDigits_length]
      simp
    · push_neg at h1
      cases k with
      | zero =>
        have : n = 0 := by simpa using h1
        subst this
        decide
      | succ j =>
        have hstep : expDigits (j + 1 + 1) n = '0' :: expDigits (j + 1) n := by
          show Nat.digitChar (n / 10 ^ (j + 1)) :: expDigits (j + 1) (n % 10 ^ (j + 1)) = _
          rw [Nat.div_eq_of_lt h1, Nat.mod_eq_of_lt h1]
          rfl
        rw [hstep, ← ih n h1 (by omega)]
        have hlen : (decDigits n).length ≤ j + 1 := decDigits_length_le (j + 1) n h1 (by omega)
        rw [show j + 1 + 1 - (decDigits n).length = (j + 1 - (decDigits n).length) + 1
          from by omega]
        rfl

theorem pad05_eq_expDigits (n : Nat) (h : n < 100000) : pad05 n = expDigits 5 n := by
  have hpow : (10 : Nat) ^ 5 = 100000 := by norm_num
  exact replicate_pad_eq_expDigits 5 n (by omega) (by omega)

theorem lex_append_left (p : List Char) {a b : List Char}
    (h : List.Lex (· < ·) a b) : List.Lex (· < ·) (p ++ a) (p ++ b) := by
  induction p with
  | nil => exact h
  | cons c p ih => exact List.Lex.cons ih

theorem lex_append_of_eqlen {a b : List Char} (s t : List Char)
    (hlen : a.length = b.length) (h : List.Lex (· < ·) a b) :
    List.Lex (· < ·) (a ++ s) (b ++ t) := by
  induction h with
  | nil => simp at hlen
  | @cons c l1 l2 _ ih => exact List.Lex.cons (ih (by simpa using hlen))
  | rel hr => exact List.Lex.rel hr

theorem digitChar_lt {a b : Nat} (ha : a < 10) (hb : b < 10) (hab : a < b) :
    Nat.digitChar a < Nat.digitChar b := by
  have key : ∀ x : Fin 10, ∀ y : Fin 10, x.val < y.val →
      Nat.digitChar x.val < Nat.digitChar y.val := by decide
  exact key ⟨a, ha⟩ ⟨b, hb⟩ hab

theorem expDigits_lex :
    ∀ (k m n : Nat), m < n → n < 10 ^ k →
      List.Lex (· < ·) (expDigits k m) (expDigits k n) := by
  intro k
  induction k with
  | zero => intro m n h1 h2; omega
  | succ k ih =>
    intro m n h1 h2
    have hq : m / 10 ^ k ≤ n / 10 ^ k := Nat.div_le_div_right (le_of_lt h1)
    rcases lt_or_eq_of_le hq with hq' | hq'
    · refine List.Lex.rel (digitChar_lt ?_ ?_ hq')
      · rw [Nat.div_lt_iff_lt_mul (Nat.pos_pow_of_pos k (by omega))]
        calc m < n := h1
          _ < 10 ^ (k + 1) := h2
          _ = 10 * 10 ^ k := by ring
      · rw [Nat.div_lt_iff_lt_mul (Nat.pos_pow_of_pos k (by omega))]
        calc n < 10 ^ (k + 1) := h2
          _ = 10 * 10 ^ k := by ring
    · show List.Lex (· < ·) (Nat.digitChar (m / 10 ^ k) :: expDigits k (m % 10 ^ k)) _
      rw [hq']
      refine List.Lex.cons (ih (m % 10 ^ k) (n % 10 ^ k) ?_
        (Nat.mod_lt n (Nat.pos_pow_of_pos k (by omega))))
      have hm := Nat.div_add_mod m (10 ^ k)
      have hn := Nat.div_add_mod n (10 ^ k)
      rw [hq'] at hm
      omega

/-- Strict lexicographic monotonicity of the zero-padded part names in the
range the 5-digit padding covers. -/
theorem partName_lex {m n : Nat} (hmn : m < n) (hn : n ≤ 99999) :
    List.Lex (· < ·) (partName m).data (partName n).data := by
  have hdata : ∀ x : Nat, (partName x).data
      = "part_".data ++ (pad05 x ++ ".pdf".data) := by
    intro x
    show ("part_" ++ String.mk (pad05 x) ++ ".pdf").data = _
    rw [String.data_append, String.data_append, List.append_assoc]
  rw [hdata m, hdata n]
  refine lex_append_left _ ?_
  have hm : pad05 m = expDigits 5 m := pad05_eq_expDigits m (by omega)
  have hn' : pad05 n = expDigits 5 n := pad05_eq_expDigits n (by omega)
  rw [hm, hn']
  refine lex_append_of_eqlen _ _ (by rw [expDigits_length, expDigits_length]) ?_
  have hpow : (10 : Nat) ^ 5 = 100000 := by norm_num
  exact expDigits_lex 5 m n hmn (by omega)

/-! ## Export loop characterisations -/

theorem sepLoop_ok (env : ExportEnv) :
    ∀ (pages : List PageRef) (idx : Nat),
      (∀ j, j < pages.length → sepOk (env.sep (idx + j)) = true) →
      sepLoop env pages idx =
        (List.zipWith (fun pr i => sepCmd pr (tmpPath env.tmpdir i)) pages
            (List.range' idx pages.length),
          (List.range' idx pages.length).map (tmpPath env.tmpdir), none) := by
  intro pages
  induction pages with
  | nil => intro idx _; rfl
  | cons pr rest ih =>
    intro idx h
    have h0 : sepOk (env.sep idx) = true := by
      have := h 0 (by simp)
      simpa using this
    have hih := ih (idx + 1) (fun j hj => by
      have := h (j + 1) (by simp only [List.length_cons]; omega)
      rw [show idx + 1 + j = idx + (j + 1) from by omega]
      exact this)
    simp only [sepLoop, h0, if_true, hih, List.length_cons, List.range'_succ]
    rfl

theorem sepLoop_fail (env : ExportEnv) :
    ∀ (k : Nat) (pages : List PageRef) (idx : Nat) (pr : PageRef),
      pages[k]? = some pr →
      (∀ j, j < k → sepOk (env.sep (idx + j)) = true) →
      sepOk (env.sep (idx + k)) = false →
      (sepLoop env pages idx).2.2 = some (sepFailMsg pr (env.sep (idx + k)).stderr)
        ∧ (sepLoop env pages idx).1.length = k + 1
        ∧ ∀ ps d, Cmd.unite ps d ∉ (sepLoop env pages idx).1 := by
  intro k
  induction k with
  | zero =>
    intro pages idx pr hget _ hbad
    cases pages with
    | nil => simp at hget
    | cons p0 rest =>
      have hp : p0 = pr := by simpa using hget
      subst hp
      rw [show idx + 0 = idx from rfl] at hbad
      simp only [sepLoop, hbad, Bool.false_eq_true, if_false]
      refine ⟨rfl, rfl, ?_⟩
      intro ps d hmem
      rcases List.mem_cons.mp hmem with h | h
      · exact Cmd.noConfusion h
      · simp at h
  | succ k ihk =>
    intro pages idx pr hget hok hbad
    cases pages with
    | nil => simp at hget
    | cons p0 rest =>
      have h0 : sepOk (env.sep idx) = true := by
        have := hok 0 (by omega)
        simpa using this
      have hrest := ihk rest (idx + 1) pr (by simpa using hget)
        (fun j hj => by
          rw [show idx + 1 + j = idx + (j + 1) from by omega]
          exact hok (j + 1) (by omega))
        (by rw [show idx + 1 + k = idx + (k + 1) from by omega]; exact hbad)
      obtain ⟨h1, h2, h3⟩ := hrest
      rw [show idx + 1 + k = idx + (k + 1) from by omega] at h1
      simp only [sepLoop, h0, if_true]
      refine ⟨h1, by simp [h2], ?_⟩
      intro ps d hmem
      simp only [List.mem_cons] at hmem
      rcases hmem with h | h
      · exact Cmd.noConfusion h
      · exact h3 ps d h

/-- Reduction of `create_pdf` past its three guards (non-empty arrangement,
tools present, save dialog answered). -/
theorem create_pdf_run (pages : List PageRef) (env : ExportEnv) (outPath : String)
    (hne : pages ≠ []) (hsep : env.haveSeparate = true) (hun : env.haveUnite = true)
    (hsave : env.savePath = some outPath) :
    create_pdf pages env =
      match sepLoop env pages 1 with
      | (cs, _, some msg) => ⟨ExportReport.exportError msg, true, cs, env.outPrev, []⟩
      | (cs, parts, none) =>
        if env.unite.returncode = 0 then
          ⟨ExportReport.done outPath, true, cs ++ [Cmd.unite parts outPath],
            env.unite.wrote, []⟩
        else
          ⟨ExportReport.exportError (uniteFailMsg env.unite.stderr), true,
            cs ++ [Cmd.unite parts outPath], env.unite.wrote, []⟩ := by
  cases pages with
  | nil => exact absurd rfl hne
  | cons p0 rest =>
    unfold create_pdf
    rw [hsep, hun, hsave]
    rfl

/-! ## Claim theorems: the export pipeline -/

/-- C8: exporting an empty arrangement reports the nothing-to-export
condition and returns before the tool-availability check, without running any
external command, without touching the output path and creating no file. -/
theorem claim_C8_empty_export :
    ∀ (env : ExportEnv),
      create_pdf [] env
        = ⟨ExportReport.nothingToExport, false, [], env.outPrev, []⟩ :=
  fun _ => rfl

/-- C5: if the `k`-th extraction is the first to fail, the export stops right
there (`k+1` commands run, none of them a merge), reports the failing source
document, page and tool diagnostic, leaves the output path unchanged, and
leaves no temporary file behind. -/
theorem claim_C5_extract_failure_aborts :
    ∀ (pages : List PageRef) (env : ExportEnv) (outPath : String) (k : Nat) (pr : PageRef),
      env.haveSeparate = true → env.haveUnite = true → env.savePath = some outPath →
      pages[k]? = some pr →
      (∀ j, j < k → sepOk (env.sep (1 + j)) = true) →
      sepOk (env.sep (1 + k)) = false →
      (create_pdf pages env).report
          = ExportReport.exportError (sepFailMsg pr (env.sep (1 + k)).stderr)
        ∧ (create_pdf pages env).outContent = env.outPrev
        ∧ (create_pdf pages env).tempsAfter = []
        ∧ (create_pdf pages env).cmds.length = k + 1
        ∧ ∀ ps d, Cmd.unite ps d ∉ (create_pdf pages env).cmds := by
  intro pages env outPath k pr hsep hun hsave hget hok hbad
  have hne : pages ≠ [] := by
    intro h
    subst h
    simp at hget
  rw [create_pdf_run pages env outPath hne hsep hun hsave]
  have hfail := sepLoop_fail env k pages 1 pr hget hok hbad
  rcases hsl : sepLoop env pages 1 with ⟨cs, parts, err⟩
  rw [hsl] at hfail
  obtain ⟨h1, h2, h3⟩ := hfail
  simp only at h1 h2 h3
  subst h1
  exact ⟨rfl, rfl, rfl, h2, h3⟩

/-- Witness for C5: an injected failure on the 3rd of 5 extractions. -/
theorem claim_C5_witness :
    (create_pdf [⟨"/a/x.pdf", 0⟩, ⟨"/a/x.pdf", 1⟩, ⟨"/b/y.pdf", 0⟩, ⟨"/b/y.pdf", 3⟩,
        ⟨"/a/x.pdf", 0⟩] envSepFail3).report
        = ExportReport.exportError
            (sepFailMsg ⟨"/b/y.pdf", 0⟩ (envSepFail3.sep (1 + 2)).stderr)
      ∧ (create_pdf [⟨"/a/x.pdf", 0⟩, ⟨"/a/x.pdf", 1⟩, ⟨"/b/y.pdf", 0⟩, ⟨"/b/y.pdf", 3⟩,
          ⟨"/a/x.pdf", 0⟩] envSepFail3).outContent = envSepFail3.outPrev
      ∧ (create_pdf [⟨"/a/x.pdf", 0⟩, ⟨"/a/x.pdf", 1⟩, ⟨"/b/y.pdf", 0⟩, ⟨"/b/y.pdf", 3⟩,
          ⟨"/a/x.pdf", 0⟩] envSepFail3).tempsAfter = []
      ∧ (create_pdf [⟨"/a/x.pdf", 0⟩, ⟨"/a/x.pdf", 1⟩, ⟨"/b/y.pdf", 0⟩, ⟨"/b/y.pdf", 3⟩,
          ⟨"/a/x.pdf", 0⟩] envSepFail3).cmds.length = 2 + 1
      ∧ ∀ ps d, Cmd.unite ps d ∉ (create_pdf [⟨"/a/x.pdf", 0⟩, ⟨"/a/x.pdf", 1⟩,
          ⟨"/b/y.pdf", 0⟩, ⟨"/b/y.pdf", 3⟩, ⟨"/a/x.pdf", 0⟩] envSepFail3).cmds :=
  claim_C5_extract_failure_aborts
    [⟨"/a/x.pdf", 0⟩, ⟨"/a/x.pdf", 1⟩, ⟨"/b/y.pdf", 0⟩, ⟨"/b/y.pdf", 3⟩, ⟨"/a/x.pdf", 0⟩]
    envSepFail3 "/out.pdf" 2 ⟨"/b/y.pdf", 0⟩ rfl rfl rfl (by decide)
    (by decide) (by decide)

/-- C2 (code bug evidence): with every extraction succeeding and the merge
tool exiting non-zero after writing a truncated document to its destination,
`create_pdf` reports the merge diagnostic, but the merge destination was the
chosen output path itself — no temporary-location-then-rename step exists —
so the output path is left holding the truncated document even though
nothing existed there before. -/
theorem claim_C2_merge_failure_leaves_output :
    (create_pdf [⟨"/a/x.pdf", 0⟩] envMergeFail).report
        = ExportReport.exportError (uniteFailMsg "boom")
      ∧ (create_pdf [⟨"/a/x.pdf", 0⟩] envMergeFail).cmds.getLast?
        = some (Cmd.unite ["/tmp/part_00001.pdf"] "/out.pdf")
      ∧ (create_pdf [⟨"/a/x.pdf", 0⟩] envMergeFail).outContent = some "TRUNCATED"
      ∧ envMergeFail.outPrev = none := by
  refine ⟨by decide, by decide, by decide, rfl⟩

/-- Commands of a fully successful export: one extraction per page in
sequence order, then the merge over the part files in order. -/
theorem create_pdf_cmds_ok (pages : List PageRef) (env : ExportEnv) (outPath : String)
    (hne : pages ≠ []) (hsep : env.haveSeparate = true) (hun : env.haveUnite = true)
    (hsave : env.savePath = some outPath)
    (hok : ∀ j, j < pages.length → sepOk (env.sep (1 + j)) = true) :
    (create_pdf pages env).cmds =
      List.zipWith (fun pr i => sepCmd pr (tmpPath env.tmpdir i)) pages
        (List.range' 1 pages.length)
      ++ [Cmd.unite ((List.range' 1 pages.length).map (tmpPath env.tmpdir)) outPath] := by
  rw [create_pdf_run pages env outPath hne hsep hun hsave, sepLoop_ok env pages 1 hok]
  by_cases h : env.unite.returncode = 0
  · simp [h]
  · simp [h]

/-- C7 (amended): for 1 to 99999 pages, a fully successful export runs
exactly one extraction command per page in sequence order (into
`part_00001.pdf`, `part_00002.pdf`, ...), then one merge command over those
part files in sequence order writing the chosen output path, and the part
file names are strictly increasing in lexicographic order. -/
theorem claim_C7_export_shape :
    ∀ (pages : List PageRef) (env : ExportEnv) (outPath : String),
      pages ≠ [] →
      env.haveSeparate = true → env.haveUnite = true → env.savePath = some outPath →
      (∀ j, j < pages.length → sepOk (env.sep (1 + j)) = true) →
      pages.length ≤ 99999 →
      (create_pdf pages env).cmds =
          List.zipWith (fun pr i => sepCmd pr (tmpPath env.tmpdir i)) pages
            (List.range' 1 pages.length)
          ++ [Cmd.unite ((List.range' 1 pages.length).map (tmpPath env.tmpdir)) outPath]
        ∧ List.Pairwise (fun a b => List.Lex (· < ·) a.data b.data)
            ((List.range' 1 pages.length).map partName) := by
  intro pages env outPath hne hsep hun hsave hok hlen
  constructor
  · exact create_pdf_cmds_ok pages env outPath hne hsep hun hsave hok
  · rw [List.pairwise_iff_get]
    intro i j hij
    have hi := i.isLt
    have hj := j.isLt
    simp only [List.length_map, List.length_range'] at hi hj
    rw [List.get_eq_getElem, List.get_eq_getElem, List.getElem_map, List.getElem_map,
      List.getElem_range', List.getElem_range']
    refine partName_lex ?_ ?_
    · have : i.val < j.val := hij
      omega
    · omega

/-- Witness for C7: the two-page export shape in the all-success
environment. -/
theorem claim_C7_witness :
    (create_pdf [⟨"/a/x.pdf", 0⟩, ⟨"/b/y.pdf", 2⟩] envAllOk).cmds =
        List.zipWith (fun pr i => sepCmd pr (tmpPath envAllOk.tmpdir i))
          [⟨"/a/x.pdf", 0⟩, ⟨"/b/y.pdf", 2⟩] (List.range' 1 2)
        ++ [Cmd.unite ((List.range' 1 2).map (tmpPath envAllOk.tmpdir)) "/out.pdf"]
      ∧ List.Pairwise (fun a b => List.Lex (· < ·) a.data b.data)
          ((List.range' 1 2).map partName) :=
  claim_C7_export_shape [⟨"/a/x.pdf", 0⟩, ⟨"/b/y.pdf", 2⟩] envAllOk "/out.pdf"
    (by decide) rfl rfl rfl (fun j _ => rfl) (by decide)

/-- C7 counterexample: exporting 100000 identical pages (all extractions and
the merge succeeding) merges the expected part files, but the part names are
not in lexicographic order: `part_100000.pdf` sorts lexicographically before
`part_99999.pdf`, so for this input the lexical sort order of the temporary
file names differs from the sequence order. -/
theorem claim_C7_counterexample :
    (create_pdf (List.replicate 100000 ⟨"/s.pdf", 0⟩) envAllOk).cmds.getLast?
        = some (Cmd.unite ((List.range' 1 100000).map (tmpPath "/tmp")) "/out.pdf")
      ∧ ¬ List.Pairwise (fun a b => List.Lex (· < ·) a.data b.data)
          ((List.range' 1 100000).map partName) := by
  constructor
  · have hne : (List.replicate 100000 (⟨"/s.pdf", 0⟩ : PageRef)) ≠ [] := by
      refine List.ne_nil_of_length_pos ?_
      rw [List.length_replicate]
      omega
    rw [create_pdf_cmds_ok _ envAllOk "/out.pdf" hne rfl rfl rfl (fun j _ => rfl)]
    rw [List.length_replicate, List.getLast?_append]
    rfl
  · intro h
    rw [List.pairwise_iff_get] at h
    have hlen : ((List.range' 1 100000).map partName).length = 100000 := by simp
    have hkey := h ⟨99998, by rw [hlen]; omega⟩ ⟨99999, by rw [hlen]; omega⟩
      (by exact Fin.mk_lt_mk.mpr (by omega))
    rw [List.get_eq_getElem, List.get_eq_getElem, List.getElem_map, List.getElem_map,
      List.getElem_range', List.getElem_range'] at hkey
    norm_num at hkey
    exact absurd hkey (by decide)

end Pdfkiwi
